import Mathlib

/-!
Verification development for the `legid` library (src/index.ts).

The library generates and verifies short self-authenticating identifiers:
a random hex token is interleaved with a SHA-1 digest of (salt ++ token),
and the resulting hex string is re-encoded in a 62-symbol alphabet.

Modelling conventions:
* JavaScript strings are modelled as `List Char`.
* Arbitrary-precision integers (`BigInt`) are modelled as `Nat`.
* The SHA-1 primitive (`crypto.subtle.digest`) is modelled as an oracle
  parameter `sha1 : List Char → List Char`; theorems assume only that it
  returns 40 lowercase hex characters, which is all the code relies on.
* The secure random byte source (`crypto.getRandomValues`) is modelled as an
  oracle `oracle : Nat → Nat → List Nat` giving, for each requested byte
  count, the successive buffers the re-roll loop would observe.
* Thrown exceptions are modelled with `Option`/`Except`.
-/

/-- The 62-symbol alphabet `ALPHABET` from the source (lowercase, uppercase,
digits); position defines the digit value 0..61. -/
def ALPHABET : List Char :=
  "abcdefghijklmnopqrstuvwxyzABCDEFGHIJKLMNOPQRSTUVWXYZ0123456789".toList

/-- The compiled-in default salt `SALT = 'legid:'`. -/
def SALT : List Char := "legid:".toList

/-- The default target identifier length `DEFAULT_ID_LENGTH = 10`. -/
def DEFAULT_ID_LENGTH : Nat := 10

/-- The maximum identifier length `MAX_ID_LENGTH = 54`. -/
def MAX_ID_LENGTH : Nat := 54

/-- Value of one hex character, as parsed by `BigInt('0x' + hex)` (both
letter cases accepted); `none` models the `SyntaxError` thrown on any
other character. -/
def hexCharVal (c : Char) : Option Nat :=
  if '0' ≤ c ∧ c ≤ '9' then some (c.toNat - '0'.toNat)
  else if 'a' ≤ c ∧ c ≤ 'f' then some (c.toNat - 'a'.toNat + 10)
  else if 'A' ≤ c ∧ c ≤ 'F' then some (c.toNat - 'A'.toNat + 10)
  else none

/-- Accumulating parse of a hex digit string, most significant digit first;
models the numeric value of `BigInt('0x' + hex)`. -/
def hexValAux (acc : Nat) : List Char → Option Nat
  | [] => some acc
  | c :: rest =>
    match hexCharVal c with
    | none => none
    | some d => hexValAux (acc * 16 + d) rest

/-- Numeric value of `BigInt('0x' + hex)`; `none` models the thrown
`SyntaxError` when a character is not a hex digit. -/
def hexVal? (hex : List Char) : Option Nat :=
  hexValAux 0 hex

/-- Lowercase hex character of a digit value below 16, as rendered by
`toString(16)`. -/
def toHexChar (d : Nat) : Char :=
  if d < 10 then Char.ofNat ('0'.toNat + d) else Char.ofNat ('a'.toNat + (d - 10))

/-- One step bound of fuel for the division loop: digits of `n` in base `b`,
most significant first.  `toDigitsBEAux b fuel n` runs the do-while loop
`result = digit(n % b) + result; n = n / b; while n > 0` with at most
`fuel` further iterations. -/
def toDigitsBEAux (b : Nat) : Nat → Nat → List Nat
  | 0, n => [n % b]
  | fuel + 1, n =>
    if n / b = 0 then [n % b]
    else toDigitsBEAux b fuel (n / b) ++ [n % b]

/-- Digits of `n` in base `b`, most significant first, always at least one
digit; this is the digit sequence produced by the do-while loops in
`hexToCustomAlphabet` (base 62) and by `toString(16)` (base 16). -/
def toDigitsBE (b n : Nat) : List Nat :=
  toDigitsBEAux b (n + 1) n

/-- Big-endian value of a digit list in base `b` (the accumulator loop
`decimal = decimal * base + index`). -/
def digitsValBE (b : Nat) (l : List Nat) : Nat :=
  l.foldl (fun x d => x * b + d) 0

/-- Minimal lowercase hex rendering of a number: `decimal.toString(16)`
(so `0` renders as `"0"`). -/
def toHexString (n : Nat) : List Char :=
  (toDigitsBE 16 n).map toHexChar

/-- `hexToCustomAlphabet(hex)` from the source: empty input gives the empty
string, otherwise the value of `BigInt('0x' + hex)` is rewritten in base 62
by the do-while division loop, each remainder rendered through `ALPHABET`.
`none` models the `SyntaxError` thrown by `BigInt` on a non-hex character. -/
def hexToCustomAlphabet (hex : List Char) : Option (List Char) :=
  if hex = [] then some []
  else
    match hexVal? hex with
    | none => none
    | some decimal => some ((toDigitsBE 62 decimal).map (fun r => ALPHABET.getD r ' '))

/-- The `for` loop of `customAlphabetToHex`: look each character up in
`ALPHABET` (throwing on a missing character, modelled by `Except.error`)
and accumulate `decimal = decimal * base + index`. -/
def customAlphabetToHexLoop (decimal : Nat) : List Char → Except String Nat
  | [] => Except.ok decimal
  | c :: rest =>
    match ALPHABET.indexOf? c with
    | none => Except.error ("Invalid character: " ++ c.toString)
    | some index => customAlphabetToHexLoop (decimal * 62 + index) rest

/-- `customAlphabetToHex(customStr)` from the source: empty input gives the
empty string, otherwise each character is looked up in `ALPHABET`
(`Except.error` models the thrown `Invalid character` error) and the
accumulated value is rendered as minimal lowercase hex by `toString(16)`. -/
def customAlphabetToHex (customStr : List Char) : Except String (List Char) :=
  if customStr = [] then Except.ok []
  else
    match customAlphabetToHexLoop 0 customStr with
    | Except.error e => Except.error e
    | Except.ok decimal => Except.ok (toHexString decimal)

/-- Hex rendering of a byte buffer: each byte becomes two lowercase hex
characters (`byte.toString(16).padStart(2, '0')`), concatenated. -/
def bytesToHex : List Nat → List Char
  | [] => []
  | byte :: rest => toHexChar (byte / 16) :: toHexChar (byte % 16) :: bytesToHex rest

/-- Acceptance test of the re-roll loop `while (array[0] < 16)`: a buffer is
kept when its first byte is at least 16.  An empty buffer is accepted
because `array[0]` is `undefined` and `undefined < 16` is `false`. -/
def bufOK (array : List Nat) : Bool :=
  match array with
  | [] => true
  | b0 :: _ => decide (16 ≤ b0)

/-- `generateRandomHexToken(length)` from the source, with the secure random
source modelled as an oracle: `oracle byteCount k` is the `k`-th buffer the
loop would draw.  The buffer holds `Math.ceil(length / 2)` bytes; the loop
re-rolls until `bufOK`, which the hypothesis `h` says eventually happens;
the accepted buffer is rendered as hex and truncated to `length`
characters. -/
def generateRandomHexToken (oracle : Nat → Nat → List Nat) (length : Nat)
    (h : ∃ k, bufOK (oracle ((length + 1) / 2) k) = true) : List Char :=
  (bytesToHex (oracle ((length + 1) / 2) (Nat.find h))).take length

/-- `calculateHexLength(alphabetLength)` from the source:
`Math.floor(alphabetLength * 1.48855)`.  The IEEE-double product
`alphabetLength * 1.48855` has the same floor as the exact rational
product for every `alphabetLength` in the validated range 1..54, so the
floor is computed exactly over the integers. -/
def calculateHexLength (alphabetLength : Int) : Int :=
  Int.fdiv (alphabetLength * 148855) 100000

/-- The argument `(hexLength + 1) >> 1` passed to `generateRandomHexToken`
inside `createId`. -/
def tokenHexDigitCount (hexLength : Nat) : Nat :=
  (hexLength + 1) / 2

/-- The interleaving loop of `createId`: for `i` in `0..hexLength-1`, odd
positions take `hexHash[i >> 1]`, even positions take `hexToken[i >> 1]`.
Out-of-range reads (which the source's length budgeting precludes) are
given the junk character `' '`. -/
def interleave (token digest : List Char) (hexLength : Nat) : List Char :=
  (List.range hexLength).map (fun i =>
    if i % 2 = 1 then digest.getD (i / 2) ' ' else token.getD (i / 2) ' ')

/-- Even-position characters of a list: the `extractedHexToken` accumulated
by the splitting loop of `verifyId`. -/
def evens : List Char → List Char
  | [] => []
  | [a] => [a]
  | a :: _ :: rest => a :: evens rest

/-- Odd-position characters of a list: the `extractedHexHash` accumulated by
the splitting loop of `verifyId`. -/
def odds : List Char → List Char
  | [] => []
  | [_] => []
  | _ :: b :: rest => b :: odds rest

/-- `createId({approximateLength, salt})` from the source, with the SHA-1
primitive and the (already accepted) random hex token generator as oracle
parameters.  Errors are modelled by `Except.error` carrying the thrown
message. -/
def createId (sha1 : List Char → List Char) (randomHexToken : Nat → List Char)
    (approximateLength : Int) (salt : List Char) : Except String (List Char) :=
  if approximateLength ≤ 0 then Except.error "ID length must be a positive integer"
  else if approximateLength > (MAX_ID_LENGTH : Int) then
    Except.error "ID length exceeds maximum of 54 characters"
  else
    let hexLength := (calculateHexLength approximateLength).toNat
    let hexToken := randomHexToken (tokenHexDigitCount hexLength)
    let hexHash := sha1 (salt ++ hexToken)
    let hexId := interleave hexToken hexHash hexLength
    match hexToCustomAlphabet hexId with
    | some s => Except.ok s
    | none => Except.error "Cannot convert hexId to a BigInt"

/-- The body of `verifyId(id, {salt})` before the `try`/`catch`:
reject ids that are empty or longer than `MAX_ID_LENGTH`, decode from the
custom alphabet (exceptions propagate as `Except.error`), split into token
and digest parts, reject an empty digest part, and otherwise prefix-match
the recomputed digest. -/
def verifyIdE (sha1 : List Char → List Char) (id : List Char) (salt : List Char) :
    Except String Bool :=
  if id = [] ∨ MAX_ID_LENGTH < id.length then Except.ok false
  else
    match customAlphabetToHex id with
    | Except.error e => Except.error e
    | Except.ok hexId =>
      let extractedHexToken := evens hexId
      let extractedHexHash := odds hexId
      if extractedHexHash.length = 0 then Except.ok false
      else
        let expectedHexValue := sha1 (salt ++ extractedHexToken)
        Except.ok (extractedHexHash.isPrefixOf expectedHexValue)

/-- The `try`/`catch` of `verifyId`: every exception raised by the body is
caught and converted to the result `false`, so the caller always receives
an ordinary boolean. -/
def verifyIdCaught (sha1 : List Char → List Char) (id : List Char) (salt : List Char) :
    Except String Bool :=
  match verifyIdE sha1 id salt with
  | Except.ok b => Except.ok b
  | Except.error _ => Except.ok false

/-- `verifyId(id, {salt})` from the source, as the boolean the caller
receives. -/
def verifyId (sha1 : List Char → List Char) (id : List Char) (salt : List Char) : Bool :=
  match verifyIdCaught sha1 id salt with
  | Except.ok b => b
  | Except.error _ => false

/-- `verifyId(id)` with the options object omitted: the declaration
`{ salt = SALT } = {}` supplies the default salt. -/
def verifyIdDefaultOpts (sha1 : List Char → List Char) (id : List Char) : Bool :=
  verifyId sha1 id SALT

/-- The sixteen characters a lowercase hex rendering can produce. -/
def lowerHexDigits : List Char := "0123456789abcdef".toList

/-- A character is a lowercase hex digit. -/
def isLowerHexDigit (c : Char) : Bool := lowerHexDigits.contains c

/-- Digit value of a lowercase hex character (0 on junk input). -/
def charHexValD (c : Char) : Nat := (hexCharVal c).getD 0

instance {ε α : Type} [DecidableEq ε] [DecidableEq α] : DecidableEq (Except ε α) := fun x y =>
  match x, y with
  | Except.ok a, Except.ok b =>
    if h : a = b then Decidable.isTrue (by rw [h]) else Decidable.isFalse (by simp [h])
  | Except.error a, Except.error b =>
    if h : a = b then Decidable.isTrue (by rw [h]) else Decidable.isFalse (by simp [h])
  | Except.ok _, Except.error _ => Decidable.isFalse (by simp)
  | Except.error _, Except.ok _ => Decidable.isFalse (by simp)

/-- A concrete stand-in digest used to instantiate oracle hypotheses in
witnesses and counterexamples: every input hashes to forty `'b'`s. -/
def sampleSha1 : List Char → List Char := fun _ => List.replicate 40 'b'

/-- A concrete stand-in accepted-token generator: `'f'` followed by `'e'`s,
which satisfies the entropy source's postcondition. -/
def sampleRandomHex : Nat → List Char := fun k => 'f' :: List.replicate (k - 1) 'e'

/-- A concrete stand-in byte oracle: every draw returns a buffer of the
requested size filled with the byte 32, which the re-roll loop accepts
immediately. -/
def sampleOracle : Nat → Nat → List Nat := fun byteCount _ => List.replicate byteCount 32

section DigitLemmas

/-- The fuel argument of `toDigitsBEAux` is irrelevant once it exceeds the
number being converted (for a genuine base, where the quotient shrinks). -/
theorem toDigitsBEAux_fuel_congr (b : Nat) (hb : 2 ≤ b) :
    ∀ (fuel₁ fuel₂ n : Nat), n < fuel₁ → n < fuel₂ →
      toDigitsBEAux b fuel₁ n = toDigitsBEAux b fuel₂ n
  | 0, _, _, h1, _ => absurd h1 (Nat.not_lt_zero _)
  | _ + 1, 0, _, _, h2 => absurd h2 (Nat.not_lt_zero _)
  | f + 1, g + 1, n, h1, h2 => by
    simp only [toDigitsBEAux]
    by_cases hq : n / b = 0
    · simp [hq]
    · have hn : 0 < n := by
        rcases Nat.eq_zero_or_pos n with rfl | h
        · simp at hq
        · exact h
      have hdiv : n / b < n := Nat.div_lt_self hn (by omega)
      rw [if_neg hq, if_neg hq,
        toDigitsBEAux_fuel_congr b hb f g (n / b) (by omega) (by omega)]

/-- Unfolding equation for `toDigitsBE`: emit the least digit last, recurse
on the quotient while it is positive. -/
theorem toDigitsBE_def (b n : Nat) (hb : 2 ≤ b) :
    toDigitsBE b n = if n / b = 0 then [n % b]
      else toDigitsBE b (n / b) ++ [n % b] := by
  by_cases hq : n / b = 0
  · simp [toDigitsBE, toDigitsBEAux, hq]
  · have hn : 0 < n := by
      rcases Nat.eq_zero_or_pos n with rfl | h
      · simp at hq
      · exact h
    have hdiv : n / b < n := Nat.div_lt_self hn (by omega)
    rw [if_neg hq]
    have h1 : toDigitsBEAux b (n + 1) n = toDigitsBEAux b n (n / b) ++ [n % b] := by
      simp [toDigitsBEAux, hq]
    show toDigitsBEAux b (n + 1) n = toDigitsBE b (n / b) ++ [n % b]
    rw [h1, toDigitsBEAux_fuel_congr b hb n ((n / b) + 1) (n / b) (by omega) (by omega)]
    rfl

theorem toDigitsBE_of_lt {b n : Nat} (hb : 2 ≤ b) (h : n < b) : toDigitsBE b n = [n] := by
  rw [toDigitsBE_def b n hb, if_pos (Nat.div_eq_of_lt h), Nat.mod_eq_of_lt h]

theorem toDigitsBE_of_le {b n : Nat} (hb : 2 ≤ b) (h : b ≤ n) :
    toDigitsBE b n = toDigitsBE b (n / b) ++ [n % b] := by
  rw [toDigitsBE_def b n hb, if_neg]
  have : 0 < n / b := Nat.div_pos h (by omega)
  omega

theorem toDigitsBEAux_ne_nil (b : Nat) : ∀ fuel n, toDigitsBEAux b fuel n ≠ []
  | 0, n => by simp [toDigitsBEAux]
  | _ + 1, n => by
    simp only [toDigitsBEAux]
    by_cases hq : n / b = 0 <;> simp [hq]

theorem toDigitsBE_ne_nil (b n : Nat) : toDigitsBE b n ≠ [] :=
  toDigitsBEAux_ne_nil b (n + 1) n

theorem digitsValBE_append_singleton (b d : Nat) (l : List Nat) :
    digitsValBE b (l ++ [d]) = digitsValBE b l * b + d := by
  simp [digitsValBE, List.foldl_append]

/-- Converting to digits and reading the digits back is the identity. -/
theorem digitsValBE_toDigitsBE {b : Nat} (hb : 2 ≤ b) :
    ∀ n, digitsValBE b (toDigitsBE b n) = n := by
  intro n
  induction n using Nat.strong_induction_on with
  | _ n ih =>
    by_cases h : n < b
    · rw [toDigitsBE_of_lt hb h]
      simp [digitsValBE]
    · push_neg at h
      rw [toDigitsBE_of_le hb h, digitsValBE_append_singleton,
        ih (n / b) (Nat.div_lt_self (by omega) (by omega)), Nat.mul_comm]
      exact Nat.div_add_mod n b

theorem toDigitsBE_digit_lt {b : Nat} (hb : 2 ≤ b) :
    ∀ n, ∀ d ∈ toDigitsBE b n, d < b := by
  intro n
  induction n using Nat.strong_induction_on with
  | _ n ih =>
    by_cases h : n < b
    · rw [toDigitsBE_of_lt hb h]
      simpa using h
    · push_neg at h
      rw [toDigitsBE_of_le hb h]
      intro d hd
      rcases List.mem_append.mp hd with hd | hd
      · exact ih (n / b) (Nat.div_lt_self (by omega) (by omega)) d hd
      · simp only [List.mem_singleton] at hd
        subst hd
        exact Nat.mod_lt n (by omega)

/-- A nonzero number's big-endian digit list starts with a nonzero digit. -/
theorem toDigitsBE_head_ne_zero {b : Nat} (hb : 2 ≤ b) :
    ∀ n, n ≠ 0 → ∃ d ds, toDigitsBE b n = d :: ds ∧ d ≠ 0 := by
  intro n
  induction n using Nat.strong_induction_on with
  | _ n ih =>
    intro hn
    by_cases h : n < b
    · exact ⟨n, [], toDigitsBE_of_lt hb h, hn⟩
    · push_neg at h
      have hq : n / b ≠ 0 := by
        have : 0 < n / b := Nat.div_pos h (by omega)
        omega
      obtain ⟨d, ds, hds, hd⟩ :=
        ih (n / b) (Nat.div_lt_self (by omega) (by omega)) hq
      exact ⟨d, ds ++ [n % b], by rw [toDigitsBE_of_le hb h, hds]; rfl, hd⟩

theorem le_foldl_digits {b : Nat} (hb : 1 ≤ b) :
    ∀ (l : List Nat) (a : Nat), a ≤ l.foldl (fun x d => x * b + d) a := by
  intro l
  induction l with
  | nil => intro a; exact Nat.le_refl a
  | cons d t ih =>
    intro a
    calc a ≤ a * b + d := by
          calc a = a * 1 := (Nat.mul_one a).symm
          _ ≤ a * b := Nat.mul_le_mul_left a hb
          _ ≤ a * b + d := Nat.le_add_right _ _
    _ ≤ t.foldl (fun x d => x * b + d) (a * b + d) := ih _

theorem digitsValBE_cons_pos {b : Nat} (hb : 1 ≤ b) (d : Nat) (l : List Nat)
    (hd : d ≠ 0) : 1 ≤ digitsValBE b (d :: l) := by
  have h1 : digitsValBE b (d :: l) = l.foldl (fun x e => x * b + e) d := by
    simp [digitsValBE]
  rw [h1]
  exact Nat.le_trans (by omega) (le_foldl_digits hb l d)

/-- Canonical digit lists (no leading zero, digits below the base) are fixed
points of value-then-digits. -/
theorem toDigitsBE_canonical {b : Nat} (hb : 2 ≤ b) :
    ∀ (l : List Nat) (d : Nat), (∀ x ∈ d :: l, x < b) → d ≠ 0 →
      toDigitsBE b (digitsValBE b (d :: l)) = d :: l := by
  intro l
  induction l using List.reverseRecOn with
  | nil =>
    intro d hlt hd
    have : d < b := hlt d (by simp)
    simp [digitsValBE, toDigitsBE_of_lt hb this]
  | append_singleton l' x ih =>
    intro d hlt hd
    have hx : x < b := hlt x (by simp)
    have hcons : d :: (l' ++ [x]) = (d :: l') ++ [x] := rfl
    rw [hcons, digitsValBE_append_singleton]
    have hpos : 1 ≤ digitsValBE b (d :: l') := digitsValBE_cons_pos (by omega) d l' hd
    have hge : b ≤ digitsValBE b (d :: l') * b + x := by
      have : b ≤ digitsValBE b (d :: l') * b := by
        calc b = 1 * b := (Nat.one_mul b).symm
        _ ≤ digitsValBE b (d :: l') * b := Nat.mul_le_mul_right b hpos
      omega
    rw [toDigitsBE_of_le hb hge]
    have hdiv : (digitsValBE b (d :: l') * b + x) / b = digitsValBE b (d :: l') := by
      rw [Nat.mul_comm, Nat.mul_add_div (by omega), Nat.div_eq_of_lt hx]
      omega
    have hmod : (digitsValBE b (d :: l') * b + x) % b = x := by
      rw [Nat.mul_comm, Nat.mul_add_mod, Nat.mod_eq_of_lt hx]
    have hsub : ∀ y ∈ d :: l', y < b := by
      intro y hy
      apply hlt
      rcases List.mem_cons.mp hy with rfl | hy'
      · exact List.mem_cons_self _ _
      · exact List.mem_cons_of_mem _ (List.mem_append_left _ hy')
    rw [hdiv, hmod, ih d hsub hd]

theorem foldl_digits_lt {b : Nat} (hb : 1 ≤ b) :
    ∀ (l : List Nat) (a : Nat), (∀ x ∈ l, x < b) →
      l.foldl (fun x d => x * b + d) a < (a + 1) * b ^ l.length := by
  intro l
  induction l with
  | nil => intro a _; simpa using Nat.lt_succ_self a
  | cons d t ih =>
    intro a hlt
    have hd : d < b := hlt d (by simp)
    calc (d :: t).foldl (fun x e => x * b + e) a
        = t.foldl (fun x e => x * b + e) (a * b + d) := by simp
    _ < (a * b + d + 1) * b ^ t.length := ih _ (fun x hx => hlt x (by simp [hx]))
    _ ≤ ((a + 1) * b) * b ^ t.length := by
        have h2 : a * b + d + 1 ≤ (a + 1) * b := by nlinarith
        exact Nat.mul_le_mul_right _ h2
    _ = (a + 1) * b ^ (d :: t).length := by
        rw [List.length_cons, Nat.pow_succ]
        ring

theorem digitsValBE_lt_pow {b : Nat} (hb : 1 ≤ b) (l : List Nat)
    (hlt : ∀ x ∈ l, x < b) : digitsValBE b l < b ^ l.length := by
  have h := foldl_digits_lt hb l 0 hlt
  simpa [digitsValBE] using h

theorem toDigitsBE_length_le {b : Nat} (hb : 2 ≤ b) :
    ∀ (n k : Nat), 1 ≤ k → n < b ^ k → (toDigitsBE b n).length ≤ k := by
  intro n
  induction n using Nat.strong_induction_on with
  | _ n ih =>
    intro k hk hn
    by_cases h : n < b
    · rw [toDigitsBE_of_lt hb h]
      simpa using hk
    · push_neg at h
      have hk2 : 2 ≤ k := by
        by_contra hc
        have : k = 1 := by omega
        subst this
        simp at hn
        omega
      rw [toDigitsBE_of_le hb h]
      have hq : n / b < b ^ (k - 1) := by
        rw [Nat.div_lt_iff_lt_mul (by omega)]
        calc n < b ^ k := hn
        _ = b ^ (k - 1) * b := by
            rw [← Nat.pow_succ]
            congr 1
            omega
      have := ih (n / b) (Nat.div_lt_self (by omega) (by omega)) (k - 1) (by omega) hq
      simp only [List.length_append, List.length_singleton]
      omega

end DigitLemmas

section CharLemmas

theorem hexCharVal_toHexChar : ∀ d, d < 16 → hexCharVal (toHexChar d) = some d := by decide

theorem isLowerHexDigit_toHexChar : ∀ d, d < 16 → isLowerHexDigit (toHexChar d) = true := by
  decide

theorem toHexChar_eq_zero_iff : ∀ d, d < 16 → (toHexChar d = '0' ↔ d = 0) := by decide

theorem isLowerHexDigit_spec :
    ∀ c, isLowerHexDigit c = true →
      charHexValD c < 16 ∧ toHexChar (charHexValD c) = c ∧
        hexCharVal c = some (charHexValD c) := by
  intro c h
  have h1 : c ∈ lowerHexDigits := by
    simpa [isLowerHexDigit, List.contains, List.elem_iff] using h
  fin_cases h1 <;> decide

theorem ALPHABET_indexOf_getD :
    ∀ d, d < 62 → ALPHABET.indexOf? (ALPHABET.getD d ' ') = some d := by decide

theorem ALPHABET_getD_isSome :
    ∀ d, d < 62 → (ALPHABET.indexOf? (ALPHABET.getD d ' ')).isSome := by decide

end CharLemmas

section CodecLemmas

/-- Parsing the rendered hex digits recovers the accumulated value. -/
theorem hexValAux_map_toHexChar :
    ∀ (ds : List Nat) (a : Nat), (∀ d ∈ ds, d < 16) →
      hexValAux a (ds.map toHexChar) = some (ds.foldl (fun x d => x * 16 + d) a)
  | [], a, _ => rfl
  | d :: ds, a, h => by
    have hd : d < 16 := h d (by simp)
    simp only [List.map_cons, hexValAux, hexCharVal_toHexChar d hd]
    exact hexValAux_map_toHexChar ds (a * 16 + d) (fun x hx => h x (by simp [hx]))

theorem hexVal?_toHexString (n : Nat) : hexVal? (toHexString n) = some n := by
  have h1 := hexValAux_map_toHexChar (toDigitsBE 16 n) 0
    (toDigitsBE_digit_lt (by omega) n)
  rw [hexVal?, toHexString, h1]
  have h2 : digitsValBE 16 (toDigitsBE 16 n) = n := digitsValBE_toDigitsBE (by omega) n
  rw [digitsValBE] at h2
  rw [h2]

/-- The alphabet-lookup loop of `customAlphabetToHex` decodes the rendered
base-62 digits back to the accumulated value. -/
theorem customAlphabetToHexLoop_map :
    ∀ (ds : List Nat) (a : Nat), (∀ d ∈ ds, d < 62) →
      customAlphabetToHexLoop a (ds.map (fun r => ALPHABET.getD r ' ')) =
        Except.ok (ds.foldl (fun x d => x * 62 + d) a)
  | [], a, _ => rfl
  | d :: ds, a, h => by
    have hd : d < 62 := h d (by simp)
    simp only [List.map_cons, customAlphabetToHexLoop, ALPHABET_indexOf_getD d hd]
    exact customAlphabetToHexLoop_map ds (a * 62 + d) (fun x hx => h x (by simp [hx]))

/-- Decoding a freshly base-62-encoded value yields its minimal lowercase
hex rendering. -/
theorem customAlphabetToHex_encoded (v : Nat) :
    customAlphabetToHex ((toDigitsBE 62 v).map (fun r => ALPHABET.getD r ' ')) =
      Except.ok (toHexString v) := by
  have hne : (toDigitsBE 62 v).map (fun r => ALPHABET.getD r ' ') ≠ [] := by
    simp [toDigitsBE_ne_nil]
  rw [customAlphabetToHex, if_neg hne,
    customAlphabetToHexLoop_map (toDigitsBE 62 v) 0 (toDigitsBE_digit_lt (by omega) v)]
  have h2 : digitsValBE 62 (toDigitsBE 62 v) = v := digitsValBE_toDigitsBE (by omega) v
  rw [digitsValBE] at h2
  rw [h2]

/-- Decomposing a list of lowercase hex characters into its digit values. -/
theorem exists_hex_digits (l : List Char) (h : ∀ c ∈ l, isLowerHexDigit c = true) :
    l = (l.map charHexValD).map toHexChar ∧ ∀ d ∈ l.map charHexValD, d < 16 := by
  constructor
  · rw [List.map_map]
    conv_lhs => rw [show l = l.map id from by simp]
    apply List.map_congr_left
    intro c hc
    exact ((isLowerHexDigit_spec c (h c hc)).2.1).symm
  · intro d hd
    rcases List.mem_map.mp hd with ⟨c, hc, rfl⟩
    exact (isLowerHexDigit_spec c (h c hc)).1

/-- Value of a nonempty all-lowercase-hex string. -/
theorem hexVal?_eq_of_lower (l : List Char) (h : ∀ c ∈ l, isLowerHexDigit c = true) :
    hexVal? l = some (digitsValBE 16 (l.map charHexValD)) := by
  obtain ⟨hrep, hlt⟩ := exists_hex_digits l h
  conv_lhs => rw [hrep]
  rw [hexVal?, hexValAux_map_toHexChar _ 0 hlt]
  rfl

end CodecLemmas

section InterleaveLemmas

theorem interleave_length (t d : List Char) (n : Nat) : (interleave t d n).length = n := by
  simp [interleave]

theorem interleave_zero (t d : List Char) : interleave t d 0 = [] := rfl

theorem interleave_one (t d : List Char) : interleave t d 1 = [t.getD 0 ' '] := rfl

theorem interleave_cons_cons (t d : List Char) (a b : Char) (n : Nat) :
    interleave (a :: t) (b :: d) (n + 2) = a :: b :: interleave t d n := by
  simp only [interleave, List.range_succ_eq_map, List.map_cons, List.map_map]
  refine congrArg₂ _ (by simp) (congrArg₂ _ (by simp) ?_)
  apply List.map_congr_left
  intro i _
  simp only [Function.comp]
  have h2 : (i + 1 + 1) % 2 = i % 2 := by omega
  have h3 : (i + 1 + 1) / 2 = i / 2 + 1 := by omega
  rw [h2, h3]
  by_cases hp : i % 2 = 1 <;> simp [hp]

theorem evens_cons_cons (a b : Char) (l : List Char) :
    evens (a :: b :: l) = a :: evens l := rfl

theorem odds_cons_cons (a b : Char) (l : List Char) :
    odds (a :: b :: l) = b :: odds l := rfl

/-- Splitting the interleaving recovers exactly the used prefix of the
token. -/
theorem evens_interleave :
    ∀ (n : Nat) (t d : List Char), (n + 1) / 2 ≤ t.length → n / 2 ≤ d.length →
      evens (interleave t d n) = t.take ((n + 1) / 2)
  | 0, t, d, _, _ => by simp [interleave, evens]
  | 1, t, d, h1, _ => by
    match t with
    | [] => simp at h1
    | a :: t' => simp [interleave_one, evens]
  | n + 2, t, d, h1, h2 => by
    match t, d with
    | [], _ => simp at h1; omega
    | _ :: _, [] => simp at h2
    | a :: t', b :: d' =>
      rw [interleave_cons_cons, evens_cons_cons]
      have ht : (n + 1) / 2 ≤ t'.length := by simp at h1; omega
      have hd : n / 2 ≤ d'.length := by simp at h2; omega
      rw [evens_interleave n t' d' ht hd]
      have hp : (n + 2 + 1) / 2 = (n + 1) / 2 + 1 := by omega
      rw [hp, List.take_succ_cons]

/-- Splitting the interleaving recovers exactly the used prefix of the
digest. -/
theorem odds_interleave :
    ∀ (n : Nat) (t d : List Char), (n + 1) / 2 ≤ t.length → n / 2 ≤ d.length →
      odds (interleave t d n) = d.take (n / 2)
  | 0, t, d, _, _ => by simp [interleave, odds]
  | 1, t, d, h1, _ => by
    match t with
    | [] => simp at h1
    | a :: t' => simp [interleave_one, odds]
  | n + 2, t, d, h1, h2 => by
    match t, d with
    | [], _ => simp at h1; omega
    | _ :: _, [] => simp at h2
    | a :: t', b :: d' =>
      rw [interleave_cons_cons, odds_cons_cons]
      have ht : (n + 1) / 2 ≤ t'.length := by simp at h1; omega
      have hd : n / 2 ≤ d'.length := by simp at h2; omega
      rw [odds_interleave n t' d' ht hd]
      have hp : (n + 2) / 2 = n / 2 + 1 := by omega
      rw [hp, List.take_succ_cons]

/-- Splitting by parity is lossless: re-interleaving the two halves at the
original length reconstructs the list. -/
theorem interleave_evens_odds :
    ∀ l : List Char, interleave (evens l) (odds l) l.length = l
  | [] => rfl
  | [a] => rfl
  | a :: b :: rest => by
    have hl : (a :: b :: rest).length = rest.length + 2 := by simp
    rw [hl, show evens (a :: b :: rest) = a :: evens rest from rfl,
      show odds (a :: b :: rest) = b :: odds rest from rfl,
      interleave_cons_cons, interleave_evens_odds rest]

theorem interleave_getD (t d : List Char) (n i : Nat) (hi : i < n) :
    (interleave t d n).getD i ' ' =
      if i % 2 = 1 then d.getD (i / 2) ' ' else t.getD (i / 2) ' ' := by
  have hl : i < (interleave t d n).length := by
    rw [interleave_length]
    exact hi
  rw [List.getD_eq_getElem _ _ hl]
  simp [interleave]

theorem mem_interleave (t d : List Char) (n : Nat) (c : Char)
    (hc : c ∈ interleave t d n) :
    (∃ j, j < (n + 1) / 2 ∧ c = t.getD j ' ') ∨
      (∃ j, j < n / 2 ∧ c = d.getD j ' ') := by
  simp only [interleave, List.mem_map, List.mem_range] at hc
  obtain ⟨i, hi, hci⟩ := hc
  by_cases hp : i % 2 = 1
  · right
    exact ⟨i / 2, by omega, by rw [← hci, if_pos hp]⟩
  · left
    exact ⟨i / 2, by omega, by rw [← hci, if_neg hp]⟩

end InterleaveLemmas

section FacadeLemmas

theorem calculateHexLength_natCast (k : Nat) :
    calculateHexLength (k : Int) = ((k * 148855) / 100000 : Nat) := by
  have h : ((k : ℤ) * 148855) = ((k * 148855 : ℕ) : ℤ) := by push_cast; ring
  rw [calculateHexLength, h, show (100000 : ℤ) = ((100000 : ℕ) : ℤ) from rfl,
    ← Int.ofNat_fdiv]

theorem hexLen_pos {k : Nat} (h : 1 ≤ k) : 1 ≤ k * 148855 / 100000 := by
  have h1 : 100000 ≤ k * 148855 := by omega
  calc 1 = 100000 / 100000 := by norm_num
  _ ≤ k * 148855 / 100000 := Nat.div_le_div_right h1

theorem hexLen_two {k : Nat} (h : 2 ≤ k) : 2 ≤ k * 148855 / 100000 := by
  have h1 : 200000 ≤ k * 148855 := by omega
  calc 2 = 200000 / 100000 := by norm_num
  _ ≤ k * 148855 / 100000 := Nat.div_le_div_right h1

theorem hexLen_le_80 {k : Nat} (h : k ≤ 54) : k * 148855 / 100000 ≤ 80 := by
  have h1 : k * 148855 ≤ 8038170 := by omega
  calc k * 148855 / 100000 ≤ 8038170 / 100000 := Nat.div_le_div_right h1
  _ = 80 := by norm_num

theorem interleave_head (t d : List Char) (n : Nat) (h : 1 ≤ n) :
    (interleave t d n).head? = some (t.getD 0 ' ') := by
  obtain ⟨m, rfl⟩ : ∃ m, n = m + 1 := ⟨n - 1, by omega⟩
  rw [interleave, List.range_succ_eq_map]
  rfl

end FacadeLemmas

section FacadeEval

/-- Evaluation of `verifyIdE` when the length guard rejects. -/
theorem verifyIdE_of_short (sha1f : List Char → List Char) (id salt : List Char)
    (h : id = [] ∨ MAX_ID_LENGTH < id.length) :
    verifyIdE sha1f id salt = Except.ok false := by
  rw [verifyIdE, if_pos h]

/-- Evaluation of `verifyIdE` when decoding fails. -/
theorem verifyIdE_of_error (sha1f : List Char → List Char) (id salt : List Char)
    (msg : String) (hne : ¬ (id = [] ∨ MAX_ID_LENGTH < id.length))
    (hdec : customAlphabetToHex id = Except.error msg) :
    verifyIdE sha1f id salt = Except.error msg := by
  rw [verifyIdE, if_neg hne, hdec]

/-- Evaluation of `verifyIdE` when decoding succeeds. -/
theorem verifyIdE_of_decode (sha1f : List Char → List Char) (id salt hexId : List Char)
    (hne : ¬ (id = [] ∨ MAX_ID_LENGTH < id.length))
    (hdec : customAlphabetToHex id = Except.ok hexId) :
    verifyIdE sha1f id salt =
      if (odds hexId).length = 0 then Except.ok false
      else Except.ok ((odds hexId).isPrefixOf (sha1f (salt ++ evens hexId))) := by
  rw [verifyIdE, if_neg hne, hdec]

/-- Evaluation of `createId` once the length validation passes. -/
theorem createId_of_valid (sha1f : List Char → List Char) (rhex : Nat → List Char)
    (n : Int) (salt : List Char) (h0 : ¬ n ≤ 0) (h54 : ¬ n > (MAX_ID_LENGTH : Int)) :
    createId sha1f rhex n salt =
      match hexToCustomAlphabet
          (interleave (rhex (tokenHexDigitCount (calculateHexLength n).toNat))
            (sha1f (salt ++ rhex (tokenHexDigitCount (calculateHexLength n).toNat)))
            (calculateHexLength n).toNat) with
      | some s => Except.ok s
      | none => Except.error "Cannot convert hexId to a BigInt" := by
  rw [createId, if_neg h0, if_neg h54]

end FacadeEval

section RoundTrip

/-- Core round-trip argument: interleaving a nonzero-leading lowercase hex
token with a 40-character lowercase hex digest over a hex budget
`1 ≤ L ≤ 80` yields a hex id that base-62-encodes to a nonempty identifier
of at most 54 characters, and (as soon as the id carries a digest digit,
i.e. `2 ≤ L`) that identifier verifies. -/
theorem roundtrip_core (sha1f : List Char → List Char) (salt tok hsh : List Char)
    (L : Nat)
    (htlen : tok.length = (L + 1) / 2)
    (hthex : ∀ c ∈ tok, isLowerHexDigit c = true)
    (hthead : tok.head? ≠ some '0')
    (hshEq : sha1f (salt ++ tok) = hsh)
    (hhlen : hsh.length = 40)
    (hhhex : ∀ c ∈ hsh, isLowerHexDigit c = true)
    (hL1 : 1 ≤ L) (hL80 : L ≤ 80) :
    ∃ e, hexToCustomAlphabet (interleave tok hsh L) = some e ∧ e ≠ [] ∧
      e.length ≤ 54 ∧ (2 ≤ L → verifyId sha1f e salt = true) := by
  have htokne : tok ≠ [] := by
    intro hcon
    rw [hcon] at htlen
    simp at htlen
    omega
  obtain ⟨t0, tok', rfl⟩ := List.exists_cons_of_ne_nil htokne
  have ht0 : t0 ≠ '0' := by
    intro hcon
    exact hthead (by rw [hcon]; rfl)
  have hexIdLen : (interleave (t0 :: tok') hsh L).length = L := interleave_length _ _ _
  have hexIdNe : interleave (t0 :: tok') hsh L ≠ [] := by
    intro hcon
    rw [hcon] at hexIdLen
    simp at hexIdLen
    omega
  have hexIdHex : ∀ c ∈ interleave (t0 :: tok') hsh L, isLowerHexDigit c = true := by
    intro c hc
    rcases mem_interleave (t0 :: tok') hsh L c hc with ⟨j, hj, rfl⟩ | ⟨j, hj, rfl⟩
    · have hjt : j < (t0 :: tok').length := by rw [htlen]; omega
      rw [List.getD_eq_getElem _ _ hjt]
      exact hthex _ (List.getElem_mem hjt)
    · have hjd : j < hsh.length := by rw [hhlen]; omega
      rw [List.getD_eq_getElem _ _ hjd]
      exact hhhex _ (List.getElem_mem hjd)
  have hexIdHead : (interleave (t0 :: tok') hsh L).head? = some t0 := by
    rw [interleave_head _ _ _ hL1]
    rfl
  obtain ⟨c0, rest, hcr⟩ := List.exists_cons_of_ne_nil hexIdNe
  have hc0t0 : c0 = t0 := by
    rw [hcr] at hexIdHead
    simpa using hexIdHead
  rw [hc0t0] at hcr
  obtain ⟨hrep, hdlt⟩ := exists_hex_digits _ hexIdHex
  have hval : hexVal? (interleave (t0 :: tok') hsh L) =
      some (digitsValBE 16 ((interleave (t0 :: tok') hsh L).map charHexValD)) :=
    hexVal?_eq_of_lower _ hexIdHex
  have henc : hexToCustomAlphabet (interleave (t0 :: tok') hsh L) =
      some ((toDigitsBE 62 (digitsValBE 16 ((interleave (t0 :: tok') hsh L).map charHexValD))).map
        (fun r => ALPHABET.getD r ' ')) := by
    rw [hexToCustomAlphabet, if_neg hexIdNe, hval]
  refine ⟨_, henc, ?_, ?_, ?_⟩
  · simp [toDigitsBE_ne_nil]
  · rw [List.length_map]
    apply toDigitsBE_length_le (by omega : 2 ≤ 62) _ 54 (by omega)
    have hdslen : ((interleave (t0 :: tok') hsh L).map charHexValD).length = L := by
      rw [List.length_map, hexIdLen]
    calc digitsValBE 16 ((interleave (t0 :: tok') hsh L).map charHexValD)
        < 16 ^ ((interleave (t0 :: tok') hsh L).map charHexValD).length :=
          digitsValBE_lt_pow (by omega) _ hdlt
    _ = 16 ^ L := by rw [hdslen]
    _ ≤ 16 ^ 80 := Nat.pow_le_pow_right (by omega) hL80
    _ ≤ 62 ^ 54 := by norm_num
  · intro hL2
    -- the decoded hex string is the original hex id
    have hc0ne : charHexValD t0 ≠ 0 := by
      intro hzero
      have hmem : t0 ∈ interleave (t0 :: tok') hsh L := by rw [hcr]; simp
      have hspec := isLowerHexDigit_spec t0 (hexIdHex t0 hmem)
      exact ht0 (by rw [← hspec.2.1, hzero]; rfl)
    have hds : (interleave (t0 :: tok') hsh L).map charHexValD =
        charHexValD t0 :: rest.map charHexValD := by
      rw [hcr]
      rfl
    have hcanon : toDigitsBE 16 (digitsValBE 16 ((interleave (t0 :: tok') hsh L).map charHexValD)) =
        (interleave (t0 :: tok') hsh L).map charHexValD := by
      rw [hds]
      exact toDigitsBE_canonical (by omega) _ _ (by rw [← hds]; exact hdlt) hc0ne
    have hdecode : customAlphabetToHex
        ((toDigitsBE 62 (digitsValBE 16 ((interleave (t0 :: tok') hsh L).map charHexValD))).map
          (fun r => ALPHABET.getD r ' ')) = Except.ok (interleave (t0 :: tok') hsh L) := by
      rw [customAlphabetToHex_encoded, toHexString, hcanon, ← hrep]
    -- length guard passes
    have heNe : (toDigitsBE 62 (digitsValBE 16 ((interleave (t0 :: tok') hsh L).map charHexValD))).map
        (fun r => ALPHABET.getD r ' ') ≠ [] := by
      simp [toDigitsBE_ne_nil]
    have heLen : ((toDigitsBE 62 (digitsValBE 16 ((interleave (t0 :: tok') hsh L).map charHexValD))).map
        (fun r => ALPHABET.getD r ' ')).length ≤ 54 := by
      rw [List.length_map]
      apply toDigitsBE_length_le (by omega : 2 ≤ 62) _ 54 (by omega)
      have hdslen : ((interleave (t0 :: tok') hsh L).map charHexValD).length = L := by
        rw [List.length_map, hexIdLen]
      calc digitsValBE 16 ((interleave (t0 :: tok') hsh L).map charHexValD)
          < 16 ^ L := by
            have := digitsValBE_lt_pow (by omega : 1 ≤ 16) _ hdlt
            rwa [hdslen] at this
      _ ≤ 16 ^ 80 := Nat.pow_le_pow_right (by omega) hL80
      _ ≤ 62 ^ 54 := by norm_num
    have hguard : ¬ ((toDigitsBE 62 (digitsValBE 16 ((interleave (t0 :: tok') hsh L).map charHexValD))).map
        (fun r => ALPHABET.getD r ' ') = [] ∨
        MAX_ID_LENGTH < ((toDigitsBE 62 (digitsValBE 16 ((interleave (t0 :: tok') hsh L).map charHexValD))).map
          (fun r => ALPHABET.getD r ' ')).length) := by
      refine not_or.mpr ⟨heNe, ?_⟩
      rw [MAX_ID_LENGTH]
      omega
    -- compute the split halves
    have htokbound : (L + 1) / 2 ≤ (t0 :: tok').length := by rw [htlen]
    have hdigbound : L / 2 ≤ hsh.length := by rw [hhlen]; omega
    have hevens : evens (interleave (t0 :: tok') hsh L) = t0 :: tok' := by
      rw [evens_interleave L _ _ htokbound hdigbound, ← htlen, List.take_length]
    have hodds : odds (interleave (t0 :: tok') hsh L) = hsh.take (L / 2) := by
      rw [odds_interleave L _ _ htokbound hdigbound]
    have hoddsne : ¬ (odds (interleave (t0 :: tok') hsh L)).length = 0 := by
      rw [hodds, List.length_take, hhlen]
      omega
    have hverE : verifyIdE sha1f
        ((toDigitsBE 62 (digitsValBE 16 ((interleave (t0 :: tok') hsh L).map charHexValD))).map
          (fun r => ALPHABET.getD r ' ')) salt = Except.ok true := by
      rw [verifyIdE_of_decode sha1f _ salt _ hguard hdecode, if_neg hoddsne, hevens, hodds,
        hshEq]
      have hpref : (hsh.take (L / 2)).isPrefixOf hsh = true := by
        rw [List.isPrefixOf_iff_prefix]
        exact List.take_prefix _ _
      rw [hpref]
    rw [verifyId, verifyIdCaught, hverE]

end RoundTrip

section SampleOracles

theorem sampleSha1_spec :
    ∀ s, (sampleSha1 s).length = 40 ∧ ∀ c ∈ sampleSha1 s, isLowerHexDigit c = true := by
  intro s
  constructor
  · simp [sampleSha1]
  · intro c hc
    have hcb : c = 'b' := List.eq_of_mem_replicate hc
    subst hcb
    decide

theorem sampleRandomHex_spec :
    ∀ k, 1 ≤ k → (sampleRandomHex k).length = k ∧
      (∀ c ∈ sampleRandomHex k, isLowerHexDigit c = true) ∧
      (sampleRandomHex k).head? ≠ some '0' := by
  intro k hk
  refine ⟨by simp [sampleRandomHex]; omega, ?_, by simp [sampleRandomHex]⟩
  intro c hc
  simp only [sampleRandomHex, List.mem_cons] at hc
  rcases hc with rfl | hc
  · decide
  · have hce : c = 'e' := List.eq_of_mem_replicate hc
    subst hce
    decide

end SampleOracles

section MasterTheorems

/-- Full behaviour of `createId` on the validated range, for any conforming
digest and entropy oracles. -/
theorem createId_master (sha1f : List Char → List Char) (rhex : Nat → List Char)
    (salt : List Char) (n : Int)
    (hsha : ∀ s, (sha1f s).length = 40 ∧ ∀ c ∈ sha1f s, isLowerHexDigit c = true)
    (hr : ∀ k, 1 ≤ k → (rhex k).length = k ∧ (∀ c ∈ rhex k, isLowerHexDigit c = true)
          ∧ (rhex k).head? ≠ some '0')
    (h1 : 1 ≤ n) (h54 : n ≤ 54) :
    ∃ id, createId sha1f rhex n salt = Except.ok id ∧ id ≠ [] ∧ id.length ≤ 54 ∧
      (2 ≤ n → verifyId sha1f id salt = true) := by
  lift n to ℕ using (by omega : (0 : ℤ) ≤ n) with k
  have hk1 : 1 ≤ k := by exact_mod_cast h1
  have hk54 : k ≤ 54 := by exact_mod_cast h54
  have hL : (calculateHexLength (k : Int)).toNat = k * 148855 / 100000 := by
    rw [calculateHexLength_natCast]
    exact Int.toNat_natCast _
  have hL1 : 1 ≤ k * 148855 / 100000 := hexLen_pos hk1
  have hL80 : k * 148855 / 100000 ≤ 80 := hexLen_le_80 hk54
  obtain ⟨hrlen, hrhex, hrhead⟩ :=
    hr (tokenHexDigitCount (k * 148855 / 100000)) (by rw [tokenHexDigitCount]; omega)
  obtain ⟨e, henc, hne, hlen, hver⟩ := roundtrip_core sha1f salt
    (rhex (tokenHexDigitCount (k * 148855 / 100000)))
    (sha1f (salt ++ rhex (tokenHexDigitCount (k * 148855 / 100000))))
    (k * 148855 / 100000)
    (by rw [hrlen, tokenHexDigitCount]) hrhex hrhead rfl
    (hsha _).1 (hsha _).2 hL1 hL80
  refine ⟨e, ?_, hne, hlen, fun h2 => hver (hexLen_two (by exact_mod_cast h2))⟩
  rw [createId_of_valid sha1f rhex _ salt (by omega)
    (by rw [MAX_ID_LENGTH]; push_cast; omega), hL, henc]

end MasterTheorems

/-- C1 counterexample: at `approximateLength = 1` the claim fails
deterministically.  With a conforming entropy oracle (`sampleRandomHex`)
and digest oracle (`sampleSha1`), `createId` succeeds and returns the
identifier `"p"`, yet `verifyId` with the same salt returns `false`: the
one-digit hex id carries a token digit but no digest digit, so the
empty-digest policy rejects it — not a leading-zero ambiguity, and not
rare. -/
theorem roundtrip_fails_at_length_one :
    createId sampleSha1 sampleRandomHex 1 SALT = Except.ok ['p'] ∧
    verifyId sampleSha1 ['p'] SALT = false := by
  constructor
  · decide
  · decide

/-- C1 (amended): for every salt, every digest oracle returning 40 lowercase
hex characters, and every token oracle meeting the entropy source's
postcondition (exact length, lowercase hex, nonzero leading digit),
round-trip integrity holds deterministically — with no false negatives at
all — for every `approximateLength` in `[2, 54]`.  (At `approximateLength
= 1` verification always returns `false`; see the counterexample.) -/
theorem createId_verifyId_roundtrip (sha1f : List Char → List Char)
    (rhex : Nat → List Char) (salt : List Char) (n : Int)
    (hsha : ∀ s, (sha1f s).length = 40 ∧ ∀ c ∈ sha1f s, isLowerHexDigit c = true)
    (hr : ∀ k, 1 ≤ k → (rhex k).length = k ∧ (∀ c ∈ rhex k, isLowerHexDigit c = true)
          ∧ (rhex k).head? ≠ some '0')
    (h2 : 2 ≤ n) (h54 : n ≤ 54) :
    ∃ id, createId sha1f rhex n salt = Except.ok id ∧ verifyId sha1f id salt = true := by
  obtain ⟨id, hc, _, _, hv⟩ := createId_master sha1f rhex salt n hsha hr (by omega) h54
  exact ⟨id, hc, hv h2⟩

/-- Witness for C1's amended theorem at `approximateLength = 10` with
concrete conforming oracles. -/
theorem createId_verifyId_roundtrip_witness :
    ∃ id, createId sampleSha1 sampleRandomHex 10 SALT = Except.ok id ∧
      verifyId sampleSha1 id SALT = true :=
  createId_verifyId_roundtrip sampleSha1 sampleRandomHex SALT 10
    sampleSha1_spec sampleRandomHex_spec (by norm_num) (by norm_num)

/-- C3: `createId` fails with the invalid-length error exactly on
`approximateLength ≤ 0` or `> 54`: it throws at 0 and 55, and succeeds
(returning an identifier) on the whole range `[1, 54]` — in particular at
54. -/
theorem createId_length_validation (sha1f : List Char → List Char)
    (rhex : Nat → List Char) (salt : List Char)
    (hsha : ∀ s, (sha1f s).length = 40 ∧ ∀ c ∈ sha1f s, isLowerHexDigit c = true)
    (hr : ∀ k, 1 ≤ k → (rhex k).length = k ∧ (∀ c ∈ rhex k, isLowerHexDigit c = true)
          ∧ (rhex k).head? ≠ some '0') :
    createId sha1f rhex 0 salt = Except.error "ID length must be a positive integer" ∧
    createId sha1f rhex 55 salt = Except.error "ID length exceeds maximum of 54 characters" ∧
    ∀ n : Int, 1 ≤ n → n ≤ 54 → ∃ id, createId sha1f rhex n salt = Except.ok id := by
  refine ⟨?_, ?_, ?_⟩
  · rw [createId, if_pos (by norm_num)]
  · rw [createId, if_neg (by norm_num), if_pos (by rw [MAX_ID_LENGTH]; norm_num)]
  · intro n h1 h54
    obtain ⟨id, hc, -, -, -⟩ := createId_master sha1f rhex salt n hsha hr h1 h54
    exact ⟨id, hc⟩

/-- Witness for C3 with concrete conforming oracles, including success at
the boundary `approximateLength = 54`. -/
theorem createId_length_validation_witness :
    createId sampleSha1 sampleRandomHex 0 SALT =
      Except.error "ID length must be a positive integer" ∧
    createId sampleSha1 sampleRandomHex 55 SALT =
      Except.error "ID length exceeds maximum of 54 characters" ∧
    ∃ id, createId sampleSha1 sampleRandomHex 54 SALT = Except.ok id := by
  obtain ⟨h0, h55, hok⟩ := createId_length_validation sampleSha1 sampleRandomHex SALT
    sampleSha1_spec sampleRandomHex_spec
  exact ⟨h0, h55, hok 54 (by norm_num) (by norm_num)⟩

/-- C2: `verifyId` never raises — the `try`/`catch` converts every exception
of the body into the plain boolean `false`, so the caller always receives a
boolean; with the options object omitted the default salt is used; and the
malformed inputs `""`, `"a"` and `"contains@#$"` are all rejected with
`false` (for every digest oracle and salt). -/
theorem verifyId_never_raises :
    ∀ (sha1f : List Char → List Char) (id salt : List Char),
      verifyIdCaught sha1f id salt = Except.ok (verifyId sha1f id salt) ∧
      verifyIdDefaultOpts sha1f id = verifyId sha1f id SALT ∧
      verifyId sha1f [] salt = false ∧
      verifyId sha1f "a".toList salt = false ∧
      verifyId sha1f "contains@#$".toList salt = false := by
  intro sha1f id salt
  refine ⟨?_, rfl, rfl, rfl, rfl⟩
  cases hE : verifyIdE sha1f id salt with
  | ok b => simp [verifyId, verifyIdCaught, hE]
  | error e => simp [verifyId, verifyIdCaught, hE]

/-- C7: `verifyId` returns `false` (not an error) immediately for an empty
or over-long id; and whenever the decoded hex string has an empty
odd-position (digest) part, it returns `false` for every digest oracle —
i.e. without consulting any recomputed digest. -/
theorem verifyId_rejection_policy (sha1f : List Char → List Char) (id salt : List Char) :
    ((id = [] ∨ MAX_ID_LENGTH < id.length) → verifyId sha1f id salt = false) ∧
    (∀ hexId, customAlphabetToHex id = Except.ok hexId → odds hexId = [] →
      verifyId sha1f id salt = false) := by
  constructor
  · intro h
    rw [verifyId, verifyIdCaught, verifyIdE_of_short sha1f id salt h]
  · intro hexId hdec hodds
    by_cases hg : id = [] ∨ MAX_ID_LENGTH < id.length
    · rw [verifyId, verifyIdCaught, verifyIdE_of_short sha1f id salt hg]
    · rw [verifyId, verifyIdCaught, verifyIdE_of_decode sha1f id salt hexId hg hdec,
        if_pos (by rw [hodds]; rfl)]

/-- Witness for C7: the empty id and the id `"a"` (which decodes to the
single hex digit `"0"`, whose digest part is empty) are both rejected. -/
theorem verifyId_rejection_policy_witness :
    verifyId sampleSha1 [] SALT = false ∧ verifyId sampleSha1 ['a'] SALT = false :=
  ⟨(verifyId_rejection_policy sampleSha1 [] SALT).1 (Or.inl rfl),
   (verifyId_rejection_policy sampleSha1 ['a'] SALT).2 ['0'] rfl rfl⟩

/-- C5: the interleaving carries `token[i/2]` at every even position `i` and
`digest[i/2]` at every odd position (given the length budget); splitting by
parity recovers exactly the first `⌈n/2⌉` token digits and the first
`⌊n/2⌋` digest digits; and splitting any string whatsoever is total and
lossless — re-interleaving the two halves reconstructs it. -/
theorem interleave_split_spec :
    (∀ (t d : List Char) (n : Nat), (n + 1) / 2 ≤ t.length → n / 2 ≤ d.length →
      (∀ i, i < n → (interleave t d n).getD i ' ' =
        if i % 2 = 1 then d.getD (i / 2) ' ' else t.getD (i / 2) ' ') ∧
      evens (interleave t d n) = t.take ((n + 1) / 2) ∧
      odds (interleave t d n) = d.take (n / 2)) ∧
    (∀ l : List Char, interleave (evens l) (odds l) l.length = l) := by
  constructor
  · intro t d n h1 h2
    exact ⟨fun i hi => interleave_getD t d n i hi,
      evens_interleave n t d h1 h2, odds_interleave n t d h1 h2⟩
  · exact interleave_evens_odds

/-- Witness for C5 at concrete inputs. -/
theorem interleave_split_spec_witness :
    evens (interleave ['a', 'b'] ['c'] 3) = ['a', 'b'] ∧
    odds (interleave ['a', 'b'] ['c'] 3) = ['c'] ∧
    interleave (evens ['x', 'y', 'z']) (odds ['x', 'y', 'z']) 3 = ['x', 'y', 'z'] := by
  refine ⟨?_, ?_, ?_⟩
  · exact ((interleave_split_spec.1 ['a', 'b'] ['c'] 3 (by decide) (by decide)).2.1).trans
      (by decide)
  · exact ((interleave_split_spec.1 ['a', 'b'] ['c'] 3 (by decide) (by decide)).2.2).trans
      (by decide)
  · exact interleave_split_spec.2 ['x', 'y', 'z']

/-- C6 counterexample: the claim's formula `ceil((hexLength+1)/2)` disagrees
with the code.  At `approximateLength = 2` the hex budget is `hexLength =
2` and the code requests `(2 + 1) >> 1 = 1` hex digit for the token,
whereas `ceil((2+1)/2) = 2`. -/
theorem token_budget_cex :
    (calculateHexLength 2).toNat = 2 ∧
    tokenHexDigitCount ((calculateHexLength 2).toNat) = 1 ∧
    ((calculateHexLength 2).toNat + 1 + 1) / 2 = 2 ∧
    tokenHexDigitCount ((calculateHexLength 2).toNat) ≠
      ((calculateHexLength 2).toNat + 1 + 1) / 2 := by
  refine ⟨?_, ?_, ?_, ?_⟩ <;> decide

/-- C6 (amended): the token is requested with exactly
`floor((hexLength+1)/2) = ceil(hexLength/2)` hex digits, and that is
precisely what the interleaving step consumes: a token of that length is
used in full (its take is itself), so the request satisfies the
interleaver's requirement exactly. -/
theorem token_budget_amended :
    ∀ (hexLength : Nat) (t d : List Char),
      t.length = tokenHexDigitCount hexLength → hexLength / 2 ≤ d.length →
      tokenHexDigitCount hexLength = (hexLength + 1) / 2 ∧
      evens (interleave t d hexLength) = t := by
  intro hexLength t d ht hd
  refine ⟨rfl, ?_⟩
  rw [evens_interleave hexLength t d (by rw [ht, tokenHexDigitCount]) hd,
    show (hexLength + 1) / 2 = t.length from by rw [ht, tokenHexDigitCount],
    List.take_length]

/-- Witness for C6's amended theorem at `hexLength = 4`. -/
theorem token_budget_amended_witness :
    tokenHexDigitCount 4 = (4 + 1) / 2 ∧
    evens (interleave ['a', 'b'] ['c', 'd'] 4) = ['a', 'b'] :=
  token_budget_amended 4 ['a', 'b'] ['c', 'd'] (by decide) (by decide)

/-- C8: on the whole validated range the integer hex budget equals the
rational floor `⌊approximateLength * 1.48855⌋` (the IEEE-double product in
the source has the same floor at every such input). -/
theorem calculateHexLength_floor (n : Int) (h1 : 1 ≤ n) (h54 : n ≤ 54) :
    calculateHexLength n = ⌊(n : ℚ) * 1.48855⌋ := by
  lift n to ℕ using (by omega : (0 : ℤ) ≤ n) with k
  rw [calculateHexLength_natCast]
  have hq : ((k : ℤ) : ℚ) * 1.48855 = ((k * 148855 : ℕ) : ℚ) / ((100000 : ℕ) : ℚ) := by
    push_cast
    norm_num
    ring
  rw [hq, Rat.floor_natCast_div_natCast]
  norm_cast

/-- Witness for C8 at `approximateLength = 10` (hex budget 14). -/
theorem calculateHexLength_floor_witness :
    calculateHexLength 10 = ⌊((10 : ℤ) : ℚ) * 1.48855⌋ :=
  calculateHexLength_floor 10 (by norm_num) (by norm_num)

section EntropyLemmas

theorem bytesToHex_length : ∀ bs : List Nat, (bytesToHex bs).length = 2 * bs.length
  | [] => rfl
  | b :: bs => by
    simp only [bytesToHex, List.length_cons, bytesToHex_length bs]
    omega

theorem mem_bytesToHex :
    ∀ (bs : List Nat), (∀ b ∈ bs, b < 256) →
      ∀ c ∈ bytesToHex bs, isLowerHexDigit c = true
  | [], _, c, hc => by simp [bytesToHex] at hc
  | b :: bs, hb, c, hc => by
    have hblt : b < 256 := hb b (by simp)
    simp only [bytesToHex, List.mem_cons] at hc
    rcases hc with rfl | rfl | hc
    · exact isLowerHexDigit_toHexChar _ (by omega)
    · exact isLowerHexDigit_toHexChar _ (by omega)
    · exact mem_bytesToHex bs (fun x hx => hb x (by simp [hx])) c hc

theorem toHexChar_ne_zero_hi : ∀ d, 1 ≤ d → d < 16 → toHexChar d ≠ '0' := by decide

end EntropyLemmas

/-- C9: for every requested digit count `≥ 1` and every byte-oracle
behaviour under which the re-roll loop terminates (and which returns
buffers of the requested size with byte values below 256, as `Uint8Array`
does), `generateRandomHexToken` returns exactly `length` lowercase hex
characters whose first character is not `'0'`. -/
theorem generateRandomHexToken_spec (oracle : Nat → Nat → List Nat) (length : Nat)
    (hlen : 1 ≤ length)
    (hterm : ∃ k, bufOK (oracle ((length + 1) / 2) k) = true)
    (hbuf : ∀ k, (oracle ((length + 1) / 2) k).length = (length + 1) / 2 ∧
      ∀ byte ∈ oracle ((length + 1) / 2) k, byte < 256) :
    (generateRandomHexToken oracle length hterm).length = length ∧
    (∀ c ∈ generateRandomHexToken oracle length hterm, isLowerHexDigit c = true) ∧
    (generateRandomHexToken oracle length hterm).head? ≠ some '0' := by
  have hok := Nat.find_spec hterm
  obtain ⟨hblen, hbval⟩ := hbuf (Nat.find hterm)
  have hbne : oracle ((length + 1) / 2) (Nat.find hterm) ≠ [] := by
    intro hcon
    rw [hcon] at hblen
    simp at hblen
    omega
  obtain ⟨b0, bs, hb⟩ := List.exists_cons_of_ne_nil hbne
  have hb0 : 16 ≤ b0 := by
    rw [hb] at hok
    simpa [bufOK] using hok
  have hb0lt : b0 < 256 := hbval b0 (by rw [hb]; simp)
  have hgen : generateRandomHexToken oracle length hterm =
      (bytesToHex (b0 :: bs)).take length := by
    rw [generateRandomHexToken, hb]
  have hlen2 : (b0 :: bs).length = (length + 1) / 2 := by rw [← hb]; exact hblen
  refine ⟨?_, ?_, ?_⟩
  · rw [hgen, List.length_take, bytesToHex_length, hlen2]
    omega
  · intro c hc
    rw [hgen] at hc
    exact mem_bytesToHex (b0 :: bs) (fun x hx => hbval x (by rw [hb]; exact hx)) c
      ((List.take_sublist _ _).mem hc)
  · rw [hgen]
    obtain ⟨m, rfl⟩ : ∃ m, length = m + 1 := ⟨length - 1, by omega⟩
    rw [show bytesToHex (b0 :: bs) =
      toHexChar (b0 / 16) :: (toHexChar (b0 % 16) :: bytesToHex bs) from rfl,
      List.take_succ_cons]
    simp only [List.head?_cons, ne_eq, Option.some.injEq]
    exact toHexChar_ne_zero_hi (b0 / 16) (by omega) (by omega)

/-- Witness for C9: a constant byte oracle (all bytes 32) at digit count 3. -/
theorem generateRandomHexToken_spec_witness :
    ∃ h : ∃ k, bufOK (sampleOracle ((3 + 1) / 2) k) = true,
      (generateRandomHexToken sampleOracle 3 h).length = 3 ∧
      (∀ c ∈ generateRandomHexToken sampleOracle 3 h, isLowerHexDigit c = true) ∧
      (generateRandomHexToken sampleOracle 3 h).head? ≠ some '0' := by
  refine ⟨⟨0, by decide⟩, generateRandomHexToken_spec sampleOracle 3 (by omega) _ ?_⟩
  intro k
  constructor
  · simp [sampleOracle]
  · intro byte hbmem
    have hb32 := List.eq_of_mem_replicate hbmem
    omega

section CodecExtra

theorem hexValAux_of_isSome :
    ∀ (l : List Char) (a : Nat), (∀ c ∈ l, (hexCharVal c).isSome = true) →
      hexValAux a l = some (l.foldl (fun x c => x * 16 + charHexValD c) a)
  | [], _, _ => rfl
  | c :: l, a, h => by
    have hc : (hexCharVal c).isSome = true := h c (by simp)
    obtain ⟨d, hd⟩ := Option.isSome_iff_exists.mp hc
    have hcd : charHexValD c = d := by rw [charHexValD, hd]; rfl
    simp only [hexValAux, hd, List.foldl_cons, hcd]
    exact hexValAux_of_isSome l _ (fun x hx => h x (by simp [hx]))

theorem hexVal?_of_isSome (l : List Char) (h : ∀ c ∈ l, (hexCharVal c).isSome = true) :
    hexVal? l = some (digitsValBE 16 (l.map charHexValD)) := by
  rw [hexVal?, hexValAux_of_isSome l 0 h, digitsValBE, List.foldl_map]

theorem beq_toHexChar_zero : ∀ d, d < 16 → ((toHexChar d == '0') = (d == 0)) := by decide

theorem dropWhile_map_toHexChar :
    ∀ ds : List Nat, (∀ d ∈ ds, d < 16) →
      (ds.map toHexChar).dropWhile (fun c => c == '0') =
        (ds.dropWhile (fun d => d == 0)).map toHexChar
  | [], _ => rfl
  | d :: ds, h => by
    have hd : d < 16 := h d (by simp)
    simp only [List.map_cons, List.dropWhile_cons]
    rw [beq_toHexChar_zero d hd]
    by_cases hz : (d == 0) = true
    · rw [if_pos hz, if_pos hz]
      exact dropWhile_map_toHexChar ds (fun x hx => h x (by simp [hx]))
    · rw [if_neg hz, if_neg hz]
      rfl

theorem digitsValBE_dropWhile_zero :
    ∀ (b : Nat) (ds : List Nat),
      digitsValBE b (ds.dropWhile (fun d => d == 0)) = digitsValBE b ds
  | _, [] => rfl
  | b, d :: ds => by
    by_cases hz : d = 0
    · subst hz
      rw [List.dropWhile_cons, if_pos (by simp), digitsValBE_dropWhile_zero b ds]
      simp [digitsValBE]
    · rw [List.dropWhile_cons, if_neg (by simpa using hz)]

theorem dropWhile_head_ne :
    ∀ (p : Nat → Bool) (ds ds' : List Nat) (d : Nat),
      ds.dropWhile p = d :: ds' → p d = false
  | _, [], _, _, h => by simp at h
  | p, a :: ds, ds', d, h => by
    by_cases hp : p a = true
    · rw [List.dropWhile_cons, if_pos hp] at h
      exact dropWhile_head_ne p ds ds' d h
    · rw [List.dropWhile_cons, if_neg hp] at h
      injection h with h1 h2
      subst h1
      simpa using hp

/-- Rendering the value of a hex digit list as minimal lowercase hex yields
the digit list with its leading zeros removed (or `"0"` when every digit is
zero). -/
theorem toHexString_eq_dropWhile (ds : List Nat) (hds : ∀ d ∈ ds, d < 16) :
    toHexString (digitsValBE 16 ds) =
      if (ds.map toHexChar).dropWhile (fun c => c == '0') = [] then ['0']
      else (ds.map toHexChar).dropWhile (fun c => c == '0') := by
  rw [dropWhile_map_toHexChar ds hds]
  rcases hcase : ds.dropWhile (fun d => d == 0) with _ | ⟨d0, ds'⟩
  · have hv : digitsValBE 16 ds = 0 := by
      rw [← digitsValBE_dropWhile_zero 16 ds, hcase]
      rfl
    rw [hv]
    simp only [List.map_nil, if_pos rfl]
    rfl
  · have hd0 : (d0 == 0) = false := dropWhile_head_ne _ ds ds' d0 hcase
    have hd0ne : d0 ≠ 0 := by simpa using hd0
    have hmem : ∀ x ∈ d0 :: ds', x < 16 := by
      intro x hx
      exact hds x ((List.dropWhile_sublist _).mem (hcase ▸ hx))
    have hveq : digitsValBE 16 ds = digitsValBE 16 (d0 :: ds') := by
      rw [← digitsValBE_dropWhile_zero 16 ds, hcase]
    rw [hveq, toHexString, toDigitsBE_canonical (by omega) ds' d0 hmem hd0ne,
      if_neg (by simp)]

end CodecExtra

/-- C4: the base conversion codec is inverse in both senses the spec
states.  First, for every nonnegative integer whose minimal lowercase hex
rendering has no leading `'0'` digit, encode-then-decode is the identity on
that rendering.  Second, for every hex digit string (leading zeros and
either letter case allowed), encode-then-decode is total and preserves the
denoted integer value. -/
theorem alphabet_codec_inverse :
    (∀ n : Nat, (toHexString n).head? ≠ some '0' →
      ∃ e, hexToCustomAlphabet (toHexString n) = some e ∧
        customAlphabetToHex e = Except.ok (toHexString n)) ∧
    (∀ h : List Char, (∀ c ∈ h, (hexCharVal c).isSome = true) →
      ∃ e h', hexToCustomAlphabet h = some e ∧ customAlphabetToHex e = Except.ok h' ∧
        hexVal? h' = hexVal? h) := by
  constructor
  · intro n _
    have hne : toHexString n ≠ [] := by simp [toHexString, toDigitsBE_ne_nil]
    refine ⟨(toDigitsBE 62 n).map (fun r => ALPHABET.getD r ' '), ?_, ?_⟩
    · rw [hexToCustomAlphabet, if_neg hne, hexVal?_toHexString]
    · exact customAlphabetToHex_encoded n
  · intro h hv
    by_cases hne : h = []
    · subst hne
      exact ⟨[], [], rfl, rfl, rfl⟩
    · have hval := hexVal?_of_isSome h hv
      refine ⟨(toDigitsBE 62 (digitsValBE 16 (h.map charHexValD))).map
          (fun r => ALPHABET.getD r ' '),
        toHexString (digitsValBE 16 (h.map charHexValD)), ?_,
        customAlphabetToHex_encoded _, ?_⟩
      · rw [hexToCustomAlphabet, if_neg hne, hval]
      · rw [hexVal?_toHexString, hval]

/-- Witness for C4: the canonical rendering of 255 (`"ff"`) round-trips
exactly, and `"0Ff"` (a leading zero and mixed case) round-trips at the
value level. -/
theorem alphabet_codec_inverse_witness :
    ((toHexString 255).head? ≠ some '0' ∧
      ∃ e, hexToCustomAlphabet (toHexString 255) = some e ∧
        customAlphabetToHex e = Except.ok (toHexString 255)) ∧
    ((∀ c ∈ ['0', 'F', 'f'], (hexCharVal c).isSome = true) ∧
      ∃ e h', hexToCustomAlphabet ['0', 'F', 'f'] = some e ∧
        customAlphabetToHex e = Except.ok h' ∧
        hexVal? h' = hexVal? ['0', 'F', 'f']) :=
  ⟨⟨by decide, alphabet_codec_inverse.1 255 (by decide)⟩,
   ⟨by decide, alphabet_codec_inverse.2 ['0', 'F', 'f'] (by decide)⟩⟩

/-- C10: for every nonempty lowercase hex string, encoding is nonempty (the
zero value encodes as the alphabet's first symbol `'a'`), and
decode-after-encode returns the input with all leading `'0'` digits
removed — or the single digit `"0"` when the input is all zeros. -/
theorem codec_canonical_roundtrip :
    ∀ h : List Char, h ≠ [] → (∀ c ∈ h, isLowerHexDigit c = true) →
      ∃ e, hexToCustomAlphabet h = some e ∧ e ≠ [] ∧
        (hexVal? h = some 0 → e = ['a']) ∧
        customAlphabetToHex e =
          Except.ok (if h.dropWhile (fun c => c == '0') = [] then ['0']
            else h.dropWhile (fun c => c == '0')) := by
  intro h hne hhex
  obtain ⟨hrep, hdlt⟩ := exists_hex_digits h hhex
  have hval : hexVal? h = some (digitsValBE 16 (h.map charHexValD)) :=
    hexVal?_eq_of_lower h hhex
  refine ⟨(toDigitsBE 62 (digitsValBE 16 (h.map charHexValD))).map
      (fun r => ALPHABET.getD r ' '),
    by rw [hexToCustomAlphabet, if_neg hne, hval], by simp [toDigitsBE_ne_nil], ?_, ?_⟩
  · intro h0
    rw [hval] at h0
    have hv0 : digitsValBE 16 (h.map charHexValD) = 0 := by
      exact (Option.some.inj h0).symm ▸ rfl
    rw [hv0]
    decide
  · rw [customAlphabetToHex_encoded, toHexString_eq_dropWhile (h.map charHexValD) hdlt,
      ← hrep]

/-- Witness for C10 at the input `"00f"`. -/
theorem codec_canonical_roundtrip_witness :
    ∃ e, hexToCustomAlphabet ['0', '0', 'f'] = some e ∧ e ≠ [] ∧
      (hexVal? ['0', '0', 'f'] = some 0 → e = ['a']) ∧
      customAlphabetToHex e =
        Except.ok (if (['0', '0', 'f'] : List Char).dropWhile (fun c => c == '0') = []
          then ['0'] else (['0', '0', 'f'] : List Char).dropWhile (fun c => c == '0')) :=
  codec_canonical_roundtrip ['0', '0', 'f'] (by decide) (by decide)
